import Mathlib

/-!
# esp32-mpc: garbled AND gate and Chou-Orlandi oblivious transfer

A shallow embedding of `garbled_circuit.cpp`, `ecc_helper.cpp` and
`oblivious_transfer.cpp`.

* Bytes (`uint8_t`) are natural numbers below 256, buffers are lists.
* The mbedTLS primitives the code calls (AES-128-CBC, the CTR-DRBG, SHA-256, the
  P-256 group and its point codec) are not part of the repository.  They are
  parameters of the embedding: `Aes`, `CtrDrbg`, `EcpGroup`, `Mbedtls` and an additive
  commutative group of curve points.
* The two OT parties talk through a `WiFiClient`; each is embedded as a process
  (`Proc`) that writes bytes, blocks until enough bytes can be read, or returns.
-/

namespace GarbledCircuit

/-! ## Constants and data model (`garbled_circuit.h`) -/

/-- KEY_SIZE: 128-bit keys. -/
def KEY_SIZE : Nat := 16
/-- TABLE_SIZE: 2^2 entries for an AND gate. -/
def TABLE_SIZE : Nat := 4
/-- ENTRY_SIZE: two AES blocks. -/
def ENTRY_SIZE : Nat := 32
/-- ENCRYPTED_SIZE: the entry plus room for two IVs. -/
def ENCRYPTED_SIZE : Nat := ENTRY_SIZE + 32

/-- A buffer of exactly `n` bytes: length `n`, every element below 256. -/
def IsBytes (n : Nat) (l : List Nat) : Prop := l.length = n ∧ ∀ x ∈ l, x < 256

instance (n : Nat) (l : List Nat) : Decidable (IsBytes n l) := by
  unfold IsBytes; infer_instance

/-- The struct TableEntry: `uint8_t encrypted[ENCRYPTED_SIZE]`. -/
structure TableEntry where
  encrypted : List Nat
deriving DecidableEq, Inhabited

/-- The struct WireLabel: `uint8_t key[KEY_SIZE]; bool permute_bit`. -/
structure WireLabel where
  key : List Nat
  permute_bit : Bool
deriving DecidableEq, Inhabited

/-- A wire label whose key really is `KEY_SIZE` bytes. -/
def WireLabel.WF (w : WireLabel) : Prop := IsBytes KEY_SIZE w.key

instance (w : WireLabel) : Decidable w.WF := by
  unfold WireLabel.WF; infer_instance

/-- A table entry that really is `ENCRYPTED_SIZE` bytes. -/
def TableEntry.WF (e : TableEntry) : Prop := IsBytes ENCRYPTED_SIZE e.encrypted

instance (e : TableEntry) : Decidable e.WF := by
  unfold TableEntry.WF; infer_instance

/-- The C `memcpy(dst + off, src, n)` on a buffer `dst` that is long enough. -/
def memcpy (dst : List Nat) (off : Nat) (src : List Nat) (n : Nat) : List Nat :=
  dst.take off ++ src.take n ++ dst.drop (off + n)

/-! ## The mbedTLS services used by `Circuit` -/

/-- The state of `mbedtls_ctr_drbg_context`: the stream of values it will hand out. -/
structure CtrDrbg where
  out : Nat → Nat

/-- The call `mbedtls_ctr_drbg_random(&ctr_drbg, buf, n)`: fills `buf` with the next `n`
bytes and advances the generator. Returns the new state and the buffer. -/
def CtrDrbg.random (d : CtrDrbg) (n : Nat) : CtrDrbg × List Nat :=
  (⟨fun i => d.out (i + n)⟩, (List.range n).map (fun i => d.out i % 256))

/-- Result of `mbedtls_aes_crypt_cbc`: return code, the IV buffer as the call leaves it
(CBC updates it in place) and the output buffer. -/
structure CbcResult where
  ret : Int
  iv : List Nat
  output : List Nat

/-- The AES part of mbedTLS, as used by the circuit. The AES context is represented by the key
it was set up with. `crypt_cbc encrypt key length iv input` stands for
`mbedtls_aes_crypt_cbc(&aes, encrypt ? MBEDTLS_AES_ENCRYPT : MBEDTLS_AES_DECRYPT, length, iv,
input, output)` on a context set up with `key`. -/
structure Aes where
  setkey_enc : List Nat → Nat → Int
  setkey_dec : List Nat → Nat → Int
  crypt_cbc : Bool → List Nat → Nat → List Nat → List Nat → CbcResult

/-- MBEDTLS_AES_ENCRYPT. -/
def AES_ENCRYPT : Bool := true
/-- MBEDTLS_AES_DECRYPT. -/
def AES_DECRYPT : Bool := false

/-- The AES calls succeed: on a 16-byte key, a 16-byte IV and 32 bytes of input every call
returns 0 and the output buffer holds 32 bytes. -/
structure Aes.Succeeds (aes : Aes) : Prop where
  setkey_enc_ok : ∀ key, IsBytes 16 key → aes.setkey_enc key 128 = 0
  setkey_dec_ok : ∀ key, IsBytes 16 key → aes.setkey_dec key 128 = 0
  crypt_ok : ∀ mode key iv input, IsBytes 16 key → IsBytes 16 iv → IsBytes 32 input →
    (aes.crypt_cbc mode key 32 iv input).ret = 0
  crypt_bytes : ∀ mode key iv input, IsBytes 16 key → IsBytes 16 iv → IsBytes 32 input →
    IsBytes 32 (aes.crypt_cbc mode key 32 iv input).output

/-- AES-128-CBC decryption under a key and IV inverts encryption under the same key and IV. -/
def Aes.Inverts (aes : Aes) : Prop :=
  ∀ key iv input, IsBytes 16 key → IsBytes 16 iv → IsBytes 32 input →
    (aes.crypt_cbc AES_DECRYPT key 32 iv
      (aes.crypt_cbc AES_ENCRYPT key 32 iv input).output).output = input

/-! ## `Circuit` (`garbled_circuit.cpp`) -/

/-- The class Circuit: its DRBG and the `initialized` flag. -/
structure Circuit where
  ctr_drbg : CtrDrbg
  initialized : Bool

/-- The circuit after its DRBG has handed out `n` more bytes. -/
def Circuit.afterDraws (c : Circuit) (n : Nat) : Circuit :=
  { c with ctr_drbg := ⟨fun i => c.ctr_drbg.out (i + n)⟩ }

/-- Circuit::generateWireLabel. -/
def Circuit.generateWireLabel (c : Circuit) (permute : Bool) : Circuit × WireLabel :=
  let (d, key) := c.ctr_drbg.random KEY_SIZE
  ({ c with ctr_drbg := d }, { key := key, permute_bit := permute })

/-- The 32-byte plaintext of an entry: all zero, then `plaintext[0] = result ? 1 : 0`. -/
def entryPlaintext (result : Bool) : List Nat :=
  (List.replicate ENTRY_SIZE 0).set 0 (if result then 1 else 0)

/-- Circuit::encryptEntry. `entry` is the caller's entry (an in/out reference); the function
returns the circuit with its advanced DRBG and the entry as it leaves it. On a failed AES call
the function returns early, with only the two IVs written. -/
def Circuit.encryptEntry (aes : Aes) (c : Circuit) (wa wb : WireLabel) (entry : TableEntry)
    (result : Bool) : Circuit × TableEntry :=
  -- Generate random IVs
  let (d1, iv1) := c.ctr_drbg.random 16
  let (d2, iv2) := d1.random 16
  let c2 : Circuit := { c with ctr_drbg := d2 }
  let enc0 := memcpy entry.encrypted 0 iv1 16
  let enc1 := memcpy enc0 16 iv2 16
  -- Set result in plaintext
  let plaintext := entryPlaintext result
  -- First encryption with wa's key
  if aes.setkey_enc wa.key 128 ≠ 0 then (c2, ⟨enc1⟩) else
  let r1 := aes.crypt_cbc AES_ENCRYPT wa.key ENTRY_SIZE iv1 plaintext
  if r1.ret ≠ 0 then (c2, ⟨enc1⟩) else
  let temp := r1.output
  -- Second encryption with wb's key
  if aes.setkey_enc wb.key 128 ≠ 0 then (c2, ⟨enc1⟩) else
  let r2 := aes.crypt_cbc AES_ENCRYPT wb.key ENTRY_SIZE iv2 temp
  if r2.ret ≠ 0 then (c2, ⟨enc1⟩) else
  let final_cipher := r2.output
  -- Store ciphertext
  (c2, ⟨memcpy enc1 32 final_cipher ENTRY_SIZE⟩)

/-- Circuit::createGarbledANDTable. `table` is the caller's array. -/
def Circuit.createGarbledANDTable (aes : Aes) (c : Circuit) (a0 a1 b0 b1 : WireLabel)
    (table : List TableEntry) : Circuit × List TableEntry :=
  (List.range 2).foldl (fun st i =>
    (List.range 2).foldl (fun st j =>
      let wa := if i = 0 then a0 else a1
      let wb := if j = 0 then b0 else b1
      let result := (i != 0) && (j != 0)  -- AND truth table
      let r := Circuit.encryptEntry aes st.1 wa wb (st.2.getD (2 * i + j) default) result
      (r.1, st.2.set (2 * i + j) r.2)) st) (c, table)

/-- The loop of `decryptEntry` that checks the bytes after the first:
`for (i; i < ENTRY_SIZE; i++) if (plaintext[i] != 0) return false;`, with `n` iterations left. -/
def decryptEntry.zeroCheck (plaintext : List Nat) : Nat → Nat → Bool
  | _, 0 => true
  | i, n + 1 => if plaintext.getD i 0 ≠ 0 then false else decryptEntry.zeroCheck plaintext (i + 1) n

/-- The buffer `plaintext` of `decryptEntry` after the two CBC decryptions:
first with wb's key and the second IV, then with wa's key and the first IV. -/
def decryptEntry.plaintext (aes : Aes) (wa wb : WireLabel) (entry : TableEntry) : List Nat :=
  let iv1 := entry.encrypted.take 16
  let iv2 := (entry.encrypted.drop 16).take 16
  let encrypted := (entry.encrypted.drop 32).take ENTRY_SIZE
  let temp := (aes.crypt_cbc AES_DECRYPT wb.key ENTRY_SIZE iv2 encrypted).output
  (aes.crypt_cbc AES_DECRYPT wa.key ENTRY_SIZE iv1 temp).output

/-- Circuit::decryptEntry. Returns `none` for `return false`, and `some r` for `return true`
with `result = r`. -/
def Circuit.decryptEntry (aes : Aes) (wa wb : WireLabel) (entry : TableEntry) : Option Bool :=
  let iv1 := entry.encrypted.take 16
  let iv2 := (entry.encrypted.drop 16).take 16
  let encrypted := (entry.encrypted.drop 32).take ENTRY_SIZE
  -- First decryption with wb's key
  if aes.setkey_dec wb.key 128 ≠ 0 then none else
  let r1 := aes.crypt_cbc AES_DECRYPT wb.key ENTRY_SIZE iv2 encrypted
  if r1.ret ≠ 0 then none else
  let temp := r1.output
  -- Second decryption with wa's key
  if aes.setkey_dec wa.key 128 ≠ 0 then none else
  let r2 := aes.crypt_cbc AES_DECRYPT wa.key ENTRY_SIZE iv1 temp
  if r2.ret ≠ 0 then none else
  let plaintext := r2.output
  -- Check if all bytes after the first are zero
  if decryptEntry.zeroCheck plaintext 1 (ENTRY_SIZE - 1) = false then none else
  some (plaintext.getD 0 0 == 1)

/-- Modelled from the spec: `evaluate_and_table(wa, wb, table)`, which is not part of
`garbled_circuit.cpp`. "Try `decrypt_entry` on each of the four entries in index order; return
the first bit that validates. If none validate, fail with `GateEvaluationFailed`" (`none`). -/
def evaluate_and_table (aes : Aes) (wa wb : WireLabel) (table : List TableEntry) : Option Bool :=
  (List.range TABLE_SIZE).findSome? (fun k => Circuit.decryptEntry aes wa wb (table.getD k default))

/-- All four mbedTLS calls made by `decryptEntry` return 0. -/
def decryptEntry.callsSucceed (aes : Aes) (wa wb : WireLabel) (entry : TableEntry) : Prop :=
  aes.setkey_dec wb.key 128 = 0
  ∧ (aes.crypt_cbc AES_DECRYPT wb.key ENTRY_SIZE ((entry.encrypted.drop 16).take 16)
      ((entry.encrypted.drop 32).take ENTRY_SIZE)).ret = 0
  ∧ aes.setkey_dec wa.key 128 = 0
  ∧ (aes.crypt_cbc AES_DECRYPT wa.key ENTRY_SIZE (entry.encrypted.take 16)
      (aes.crypt_cbc AES_DECRYPT wb.key ENTRY_SIZE ((entry.encrypted.drop 16).take 16)
        ((entry.encrypted.drop 32).take ENTRY_SIZE)).output).ret = 0

/-! ## A small cipher used to instantiate the AES parameter -/

/-- Bytewise XOR of two buffers. -/
def xorBytes (a b : List Nat) : List Nat := List.zipWith (fun x y => x ^^^ y) a b

/-- A stand-in for AES-128-CBC: the data is XORed with the pad `(key XOR iv) ‖ (key XOR iv)`;
the IV buffer is left holding the last ciphertext block. -/
def toyAes : Aes where
  setkey_enc := fun _ _ => 0
  setkey_dec := fun _ _ => 0
  crypt_cbc := fun mode key _ iv input =>
    let pad := xorBytes key iv ++ xorBytes key iv
    let output := xorBytes input pad
    { ret := 0, iv := if mode then output.drop 16 else input.drop 16, output := output }

/-! ## Concrete inputs for the closed statements -/

/-- A circuit whose DRBG hands out 3, 10, 17, ... (reduced to bytes). -/
def demoCircuit : Circuit := ⟨⟨fun i => 7 * i + 3⟩, true⟩
/-- An all-zero table entry. -/
def demoEntry : TableEntry := ⟨List.replicate 64 0⟩
/-- Label 0 of wire A. -/
def demoA0 : WireLabel := ⟨List.replicate 16 1, false⟩
/-- Label 1 of wire A. -/
def demoA1 : WireLabel := ⟨List.replicate 16 5, true⟩
/-- Label 0 of wire B. -/
def demoB0 : WireLabel := ⟨List.replicate 16 2, false⟩
/-- Label 1 of wire B. -/
def demoB1 : WireLabel := ⟨List.replicate 16 9, true⟩
/-- A caller's array of four entries. -/
def demoTable : List TableEntry := List.replicate 4 demoEntry
/-- An entry with zero IVs whose ciphertext decrypts, under `demoA0` and `demoB0` with the
stand-in cipher, to the plaintext `02 00 ... 00`. -/
def forgedEntry : TableEntry := ⟨List.replicate 32 0 ++ 1 :: List.replicate 31 3⟩

end GarbledCircuit

open GarbledCircuit

/-! ## mbedTLS big numbers and the P-256 group (`ecc_helper.h`, `ecc_helper.cpp`) -/

/-- The call `mbedtls_mpi_read_binary(&X, buf, buflen)`: the big-endian unsigned value of `buf`. -/
def mpi_read_binary (buf : List Nat) : Nat := buf.foldl (fun acc x => acc * 256 + x) 0

/-- The call `mbedtls_mpi_write_binary(&X, buf, buflen)`: `X` as `buflen` big-endian bytes. -/
def mpi_write_binary : Nat → Nat → List Nat
  | _, 0 => []
  | X, n + 1 => mpi_write_binary (X / 256) n ++ [X % 256]

/-- The fields of `mbedtls_ecp_group` the code reads: the base point and the group order. -/
structure EcpGroup (Pt : Type) where
  G : Pt
  N : Nat

/-- The order of the P-256 base point, as loaded by `mbedtls_ecp_group_load` for
`MBEDTLS_ECP_DP_SECP256R1`. -/
def secp256r1_N : Nat := 0xFFFFFFFF00000000FFFFFFFFFFFFFFFFBCE6FAADA7179E84F3B9CAC2FC632551

/-- The mbedTLS functions the OT code calls besides group arithmetic.
`ecp_point_write_binary P` is the `olen` bytes `mbedtls_ecp_point_write_binary` writes for `P` in
uncompressed format; `ecp_point_read_binary buf` is the return code of
`mbedtls_ecp_point_read_binary` together with the point it leaves in its output argument;
`sha256` is `mbedtls_sha256(input, ilen, output, 0)`. -/
structure Mbedtls (Pt : Type) where
  ecp_point_write_binary : Pt → List Nat
  ecp_point_read_binary : List Nat → Int × Pt
  sha256 : List Nat → List Nat

section Curve

variable {Pt : Type} [AddCommGroup Pt]

/-- The call `mbedtls_ecp_mul(grp, &R, &m, &P, f_rng, p_rng)`: `R = m * P`. -/
def ecp_mul (m : Nat) (P : Pt) : Pt := m • P

/-- The call `mbedtls_ecp_muladd(grp, &R, &m, &P, &n, &Q)`: `R = m * P + n * Q`. -/
def ecp_muladd (m : Nat) (P : Pt) (n : Nat) (Q : Pt) : Pt := m • P + n • Q

/-- The class ECCHelper after its constructor ran: the seeded DRBG and the loaded group. -/
structure ECCHelper (Pt : Type) where
  ctr_drbg : CtrDrbg
  group : EcpGroup Pt

/-- ECCHelper::generateRandomScalar. Returns the helper with its advanced DRBG and the scalar.
`mbedtls_mpi_mod_mpi` leaves the scalar unreduced when the modulus is 0, as `%` does. -/
def ECCHelper.generateRandomScalar (ecc : ECCHelper Pt) : ECCHelper Pt × Nat :=
  let (d, buf) := ecc.ctr_drbg.random 32
  let scalar := mpi_read_binary buf
  ({ ecc with ctr_drbg := d }, scalar % ecc.group.N)

/-- ECCHelper::pointMultiply. -/
def ECCHelper.pointMultiply (_ecc : ECCHelper Pt) (scalar : Nat) (point : Pt) : Pt :=
  ecp_mul scalar point

/-- The point codec round-trips and always emits `2 * 32 + 1` bytes. -/
structure Mbedtls.CodecOK (lib : Mbedtls Pt) : Prop where
  write_length : ∀ P, (lib.ecp_point_write_binary P).length = 65
  read_write : ∀ P, lib.ecp_point_read_binary (lib.ecp_point_write_binary P) = (0, P)

/-- The group order is positive and kills every point: `N * P = 0`. -/
structure EcpGroup.OrderOK (grp : EcpGroup Pt) : Prop where
  N_pos : 0 < grp.N
  N_smul : ∀ P : Pt, grp.N • P = 0

/-- The base point has order exactly `N`. -/
def EcpGroup.GeneratorOK (grp : EcpGroup Pt) : Prop :=
  ∀ k : Nat, k • grp.G = 0 ↔ grp.N ∣ k

end Curve

/-! ## The two OT parties as processes over a `WiFiClient` -/

/-- A party talking through a `WiFiClient`: it returns, writes bytes (`client.write(buf, n)`), or
blocks until `n` bytes are available and reads them
(`while (client.available() < n) delay(..); client.readBytes(buf, n)`). -/
inductive Proc (α : Type) where
  | done : α → Proc α
  | write : List Nat → Proc α → Proc α
  | read : Nat → (List Nat → Proc α) → Proc α

/-- Runs one party on the bytes the peer delivers: the bytes it writes, and its result if it
returns before the input runs out. -/
def Proc.run {α : Type} : Proc α → List Nat → List Nat × Option α
  | .done a, _ => ([], some a)
  | .write bs k, inp => ((bs ++ (k.run inp).1), (k.run inp).2)
  | .read n k, inp => if inp.length < n then ([], none) else (k (inp.take n)).run (inp.drop n)

/-- Runs two parties against each other over a reliable ordered channel: `toQ` holds the bytes
written by `p` and not yet read by `q`, `toP` the other direction. `none` when the fuel runs out
or both parties are stuck. -/
def Proc.connect {α β : Type} : Nat → Proc α → Proc β → List Nat → List Nat → Option (α × β)
  | 0, _, _, _, _ => none
  | fuel + 1, .write bs k, q, toQ, toP => Proc.connect fuel k q (toQ ++ bs) toP
  | fuel + 1, .read n k, q, toQ, toP =>
    if n ≤ toP.length then Proc.connect fuel (k (toP.take n)) q toQ (toP.drop n)
    else match q with
      | .write bs k2 => Proc.connect fuel (.read n k) k2 toQ (toP ++ bs)
      | .read m k2 =>
        if m ≤ toQ.length then Proc.connect fuel (.read n k) (k2 (toQ.take m)) (toQ.drop m) toP
        else none
      | .done _ => none
  | fuel + 1, .done a, q, toQ, toP =>
    match q with
    | .done b => some (a, b)
    | .write bs k2 => Proc.connect fuel (.done a) k2 toQ (toP ++ bs)
    | .read m k2 =>
      if m ≤ toQ.length then Proc.connect fuel (.done a) (k2 (toQ.take m)) (toQ.drop m) toP
      else none

/-! ## `ObliviousTransfer` (`oblivious_transfer.h`, `oblivious_transfer.cpp`) -/

/-- ECC_KEY_SIZE. -/
def ECC_KEY_SIZE : Nat := 32
/-- ECC_POINT_SIZE. -/
def ECC_POINT_SIZE : Nat := 2 * ECC_KEY_SIZE + 1

/-- The value of `sizeof(GarbledCircuit::WireLabel)`: the key bytes and one byte for the bool. -/
def WIRE_LABEL_SIZE : Nat := KEY_SIZE + 1

/-- The bytes of a wire label, `(uint8_t*)&label`. -/
def GarbledCircuit.WireLabel.toBytes (l : WireLabel) : List Nat :=
  l.key ++ [if l.permute_bit then 1 else 0]

/-- The wire label stored in `sizeof(WireLabel)` bytes. -/
def GarbledCircuit.WireLabel.ofBytes (bs : List Nat) : WireLabel :=
  { key := bs.take KEY_SIZE, permute_bit := bs.getD KEY_SIZE 0 != 0 }

/-- A `uint8_t buf[n]` whose front a call filled with `data`. Bytes the call left untouched are
unspecified in C; they are 0 here. -/
def buffer (n : Nat) (data : List Nat) : List Nat := (data ++ List.replicate n 0).take n

/-- The masking loop `for i < sizeof(WireLabel): out[i] = input[i] ^ key[i % 32]`. -/
def xorMask (input key : List Nat) : List Nat :=
  (List.range WIRE_LABEL_SIZE).map (fun i => input.getD i 0 ^^^ key.getD (i % 32) 0)

namespace ObliviousTransfer

variable {Pt : Type} [AddCommGroup Pt]

/-- The Garbler's scalar `a`. -/
def sendWireLabels.a (ecc : ECCHelper Pt) : Nat := ecc.generateRandomScalar.2

/-- The Garbler's point `A = aG`. -/
def sendWireLabels.A (ecc : ECCHelper Pt) : Pt := ecp_mul (sendWireLabels.a ecc) ecc.group.G

/-- The Garbler's buffer `A_buf`. -/
def sendWireLabels.A_buf (lib : Mbedtls Pt) (ecc : ECCHelper Pt) : List Nat :=
  buffer ECC_POINT_SIZE (lib.ecp_point_write_binary (sendWireLabels.A ecc))

/-- The Garbler's point `k0_point = a * B`, with `B` as read from `B_buf` (the return code of
the read is not looked at). -/
def sendWireLabels.k0_point (lib : Mbedtls Pt) (ecc : ECCHelper Pt) (B_buf : List Nat) : Pt :=
  let B := (lib.ecp_point_read_binary B_buf).2
  ecc.pointMultiply (sendWireLabels.a ecc) B

/-- The Garbler's point `k1_point = a * (B - A)`, with `B - A` computed as `1*B + (N-1)*A`. -/
def sendWireLabels.k1_point (lib : Mbedtls Pt) (ecc : ECCHelper Pt) (B_buf : List Nat) : Pt :=
  let B := (lib.ecp_point_read_binary B_buf).2
  let one := 1
  let neg_one := ecc.group.N - one  -- neg_one = N - 1
  -- Compute B - A
  let temp_point := ecp_muladd one B neg_one (sendWireLabels.A ecc)
  -- Compute a * (B - A)
  ecc.pointMultiply (sendWireLabels.a ecc) temp_point

/-- ObliviousTransfer::sendWireLabels. -/
def sendWireLabels (lib : Mbedtls Pt) (ecc : ECCHelper Pt) (label0 label1 : WireLabel) :
    Proc Unit :=
  -- Generate random a and compute A = aG; send A to receiver
  .write (sendWireLabels.A_buf lib ecc) <|
  -- Receive B
  .read ECC_POINT_SIZE fun B_buf =>
    -- Compute k0 = B^a and hash it
    let k0_buf := lib.ecp_point_write_binary (sendWireLabels.k0_point lib ecc B_buf)
    let k0_key := lib.sha256 k0_buf
    -- Compute k1 = (B-A)^a and hash it
    let k1_buf := lib.ecp_point_write_binary (sendWireLabels.k1_point lib ecc B_buf)
    let k1_key := lib.sha256 k1_buf
    -- Encrypt wire labels
    let e0 := xorMask label0.toBytes k0_key
    let e1 := xorMask label1.toBytes k1_key
    .write e0 <| .write e1 <| .done ()

/-- The Evaluator's scalar `b`. -/
def receiveWireLabel.b (ecc : ECCHelper Pt) : Nat := ecc.generateRandomScalar.2

/-- The Evaluator's point `B`: `g^b` for choice 0, `A + g^b` (as `1*A + 1*g^b`) for choice 1,
with `A` as read from `A_buf` (the return code of the read is not looked at). -/
def receiveWireLabel.B (lib : Mbedtls Pt) (ecc : ECCHelper Pt) (choice : Bool)
    (A_buf : List Nat) : Pt :=
  let A := (lib.ecp_point_read_binary A_buf).2
  -- Compute g^b
  let temp := ecp_mul (receiveWireLabel.b ecc) ecc.group.G
  if choice then
    -- B = A + g^b using muladd: B = 1*A + 1*g^b
    let one := 1
    ecp_muladd one A one temp
  else
    -- B = g^b
    temp

/-- The Evaluator's buffer `B_buf`. -/
def receiveWireLabel.B_buf (lib : Mbedtls Pt) (ecc : ECCHelper Pt) (choice : Bool)
    (A_buf : List Nat) : List Nat :=
  buffer ECC_POINT_SIZE (lib.ecp_point_write_binary (receiveWireLabel.B lib ecc choice A_buf))

/-- The Evaluator's point `k_point = b * A`. -/
def receiveWireLabel.k_point (lib : Mbedtls Pt) (ecc : ECCHelper Pt) (A_buf : List Nat) : Pt :=
  let A := (lib.ecp_point_read_binary A_buf).2
  ecc.pointMultiply (receiveWireLabel.b ecc) A

/-- ObliviousTransfer::receiveWireLabel. -/
def receiveWireLabel (lib : Mbedtls Pt) (ecc : ECCHelper Pt) (choice : Bool) : Proc WireLabel :=
  -- Receive A from sender
  .read ECC_POINT_SIZE fun A_buf =>
    -- Generate random b, compute B, send B to sender
    .write (receiveWireLabel.B_buf lib ecc choice A_buf) <|
    -- Compute k = A^b and hash it
    let k_buf := lib.ecp_point_write_binary (receiveWireLabel.k_point lib ecc A_buf)
    let key := lib.sha256 k_buf
    -- Receive encrypted wire labels
    .read (WIRE_LABEL_SIZE + WIRE_LABEL_SIZE) fun e =>
      let e0 := e.take WIRE_LABEL_SIZE
      let e1 := (e.drop WIRE_LABEL_SIZE).take WIRE_LABEL_SIZE
      -- Decrypt chosen wire label
      let encrypted := if choice then e1 else e0
      .done (WireLabel.ofBytes (xorMask encrypted key))

/-- One OT exchange: the Garbler runs `sendWireLabels`, the Evaluator `receiveWireLabel`, over
an initially empty connection. -/
def runOT (lib : Mbedtls Pt) (fuel : Nat) (eccG eccE : ECCHelper Pt) (label0 label1 : WireLabel)
    (choice : Bool) : Option (Unit × WireLabel) :=
  Proc.connect fuel (sendWireLabels lib eccG label0 label1) (receiveWireLabel lib eccE choice)
    [] []

end ObliviousTransfer

/-! ## A seven-element group used to instantiate the curve parameter -/

/-- The group `Z/7` with base point 1 and order 7. -/
def toyGroup : EcpGroup (ZMod 7) := { G := 1, N := 7 }

/-- A codec for `Z/7`: tag `04`, the value, 63 zero bytes; a stand-in digest. Reading anything
else returns `MBEDTLS_ERR_ECP_BAD_INPUT_DATA` and leaves 0. -/
def toyLib : Mbedtls (ZMod 7) where
  ecp_point_write_binary := fun P => 4 :: P.val :: List.replicate 63 0
  ecp_point_read_binary := fun buf =>
    if buf.length = 65 ∧ buf.getD 0 0 = 4 ∧ buf.getD 1 0 < 7 ∧ buf.drop 2 = List.replicate 63 0
    then (0, ((buf.getD 1 0 : Nat) : ZMod 7)) else (-20352, 0)
  sha256 := fun input => (List.range 32).map (fun i => (input.sum + 37 * i + 11) % 256)

/-- A DRBG that hands out the given bytes, then zeros. -/
def drbgOf (bytes : List Nat) : CtrDrbg := ⟨fun i => bytes.getD i 0⟩

/-- A helper on the seven-element group whose DRBG hands out the 32-byte encoding of `s`. -/
def toyHelper (s : Nat) : ECCHelper (ZMod 7) := ⟨drbgOf (mpi_write_binary s 32), toyGroup⟩

/-! # Theorems about the garbled AND gate -/

namespace GarbledCircuit

/-! ## Lemmas about the circuit -/

theorem isBytes_random (d : CtrDrbg) (n : Nat) : IsBytes n (d.random n).2 := by
  refine ⟨by simp [CtrDrbg.random], ?_⟩
  intro x hx
  simp only [CtrDrbg.random, List.mem_map] at hx
  obtain ⟨i, _, rfl⟩ := hx
  exact Nat.mod_lt _ (by norm_num)

theorem isBytes_entryPlaintext (r : Bool) : IsBytes 32 (entryPlaintext r) := by
  cases r <;> decide

theorem entryPlaintext_eq (r : Bool) :
    entryPlaintext r = (if r then 1 else 0) :: List.replicate 31 0 := by
  cases r <;> rfl

theorem memcpy_layout (e iv1 iv2 c : List Nat) (he : e.length = 64) (h1 : iv1.length = 16)
    (h2 : iv2.length = 16) (hc : c.length = 32) :
    memcpy (memcpy (memcpy e 0 iv1 16) 16 iv2 16) 32 c 32 = iv1 ++ iv2 ++ c := by
  have t1 : iv1.take 16 = iv1 := List.take_of_length_le (by omega)
  have t2 : iv2.take 16 = iv2 := List.take_of_length_le (by omega)
  have t3 : c.take 32 = c := List.take_of_length_le (by omega)
  have e1 : memcpy e 0 iv1 16 = iv1 ++ e.drop 16 := by
    simp [memcpy, t1]
  have e2 : memcpy (iv1 ++ e.drop 16) 16 iv2 16 = iv1 ++ iv2 ++ e.drop 32 := by
    have d1 : (iv1 ++ e.drop 16).take 16 = iv1 := by
      rw [List.take_append_of_le_length (by omega), t1]
    have d2 : (iv1 ++ e.drop 16).drop (16 + 16) = e.drop 32 := by
      rw [show 16 + 16 = iv1.length + 16 by omega, List.drop_append, List.drop_drop]
    simp only [memcpy, d1, d2, t2]
  have e3 : memcpy (iv1 ++ iv2 ++ e.drop 32) 32 c 32 = iv1 ++ iv2 ++ c := by
    have d1 : (iv1 ++ iv2 ++ e.drop 32).take 32 = iv1 ++ iv2 := by
      rw [show 32 = (iv1 ++ iv2).length by simp [h1, h2], List.take_left]
    have d2 : (iv1 ++ iv2 ++ e.drop 32).drop (32 + 32) = [] := by
      apply List.drop_of_length_le
      simp [h1, h2, he]
    simp only [memcpy, d1, d2, t3, List.append_nil]
  rw [e1, e2, e3]

theorem zeroCheck_iff (p : List Nat) (n i : Nat) :
    decryptEntry.zeroCheck p i n = true ↔ ∀ k, i ≤ k → k < i + n → p.getD k 0 = 0 := by
  induction n generalizing i with
  | zero => simp [decryptEntry.zeroCheck]; intro k h1 h2; omega
  | succ n ih =>
    simp only [decryptEntry.zeroCheck]
    by_cases h : p.getD i 0 = 0
    · simp only [h, ne_eq, not_true_eq_false, if_false, ih]
      constructor
      · intro hk k h1 h2
        rcases Nat.eq_or_lt_of_le h1 with rfl | h3
        · exact h
        · exact hk k h3 (by omega)
      · intro hk k h1 h2
        exact hk k (by omega) (by omega)
    · simp only [ne_eq, h, not_false_eq_true, if_true]
      constructor
      · intro hf; cases hf
      · intro hk; exact absurd (hk i (le_refl _) (by omega)) h

/-- The entry `iv1 ‖ iv2 ‖ c` that `encryptEntry` produces when every AES call succeeds. -/
theorem encryptEntry_snd (aes : Aes) (hs : aes.Succeeds) (c : Circuit) (wa wb : WireLabel)
    (hwa : wa.WF) (hwb : wb.WF) (entry : TableEntry) (he : entry.WF) (result : Bool) :
    (Circuit.encryptEntry aes c wa wb entry result).2.encrypted
      = (c.ctr_drbg.random 16).2 ++ ((c.ctr_drbg.random 16).1.random 16).2
        ++ (aes.crypt_cbc AES_ENCRYPT wb.key 32 ((c.ctr_drbg.random 16).1.random 16).2
            (aes.crypt_cbc AES_ENCRYPT wa.key 32 (c.ctr_drbg.random 16).2
              (entryPlaintext result)).output).output := by
  have hiv1 := isBytes_random c.ctr_drbg 16
  have hiv2 := isBytes_random (c.ctr_drbg.random 16).1 16
  have hp := isBytes_entryPlaintext result
  have ht := hs.crypt_bytes AES_ENCRYPT wa.key _ _ hwa hiv1 hp
  have hc := hs.crypt_bytes AES_ENCRYPT wb.key _ _ hwb hiv2 ht
  have k1 := hs.setkey_enc_ok wa.key hwa
  have k2 := hs.setkey_enc_ok wb.key hwb
  have r1 := hs.crypt_ok AES_ENCRYPT wa.key _ _ hwa hiv1 hp
  have r2 := hs.crypt_ok AES_ENCRYPT wb.key _ _ hwb hiv2 ht
  simp only [Circuit.encryptEntry, ENTRY_SIZE, k1, k2, r1, r2, ne_eq, not_true_eq_false, if_false]
  exact memcpy_layout _ _ _ _ he.1 hiv1.1 hiv2.1 hc.1

theorem take_drop_layout (iv1 iv2 c : List Nat) (h1 : iv1.length = 16) (h2 : iv2.length = 16)
    (hc : c.length = 32) :
    (iv1 ++ iv2 ++ c).take 16 = iv1 ∧ ((iv1 ++ iv2 ++ c).drop 16).take 16 = iv2
      ∧ ((iv1 ++ iv2 ++ c).drop 32).take 32 = c := by
  refine ⟨?_, ?_, ?_⟩
  · rw [List.append_assoc, ← h1, List.take_left]
  · rw [List.append_assoc, ← h1, List.drop_left, h1, ← h2, List.take_left]
  · rw [show 32 = (iv1 ++ iv2).length by simp [h1, h2], List.drop_left]
    exact List.take_of_length_le (by simp [h1, h2, hc])

theorem decryptEntry_of_ok (aes : Aes) (wa wb : WireLabel) (entry : TableEntry)
    (k1 : aes.setkey_dec wb.key 128 = 0)
    (r1 : (aes.crypt_cbc AES_DECRYPT wb.key 32 ((entry.encrypted.drop 16).take 16)
      ((entry.encrypted.drop 32).take 32)).ret = 0)
    (k2 : aes.setkey_dec wa.key 128 = 0)
    (r2 : (aes.crypt_cbc AES_DECRYPT wa.key 32 (entry.encrypted.take 16)
      (aes.crypt_cbc AES_DECRYPT wb.key 32 ((entry.encrypted.drop 16).take 16)
        ((entry.encrypted.drop 32).take 32)).output).ret = 0) :
    Circuit.decryptEntry aes wa wb entry
      = if decryptEntry.zeroCheck (decryptEntry.plaintext aes wa wb entry) 1 31 = false then none
        else some ((decryptEntry.plaintext aes wa wb entry).getD 0 0 == 1) := by
  simp only [Circuit.decryptEntry, decryptEntry.plaintext, ENTRY_SIZE, k1, k2, r1, r2, ne_eq,
    not_true_eq_false, if_false]

theorem getD_replicate_zero (n m : Nat) : (List.replicate n 0).getD m 0 = 0 := by
  rw [List.getD_eq_getElem?_getD, List.getElem?_replicate]
  split <;> rfl

/-- Any entry `iv1 ‖ iv2 ‖ Enc(wb, iv2, Enc(wa, iv1, x 00 .. 00))` is accepted under `(wa, wb)`,
whatever the first plaintext byte `x` is; the bit returned is `x == 1`. -/
theorem decryptEntry_nested (aes : Aes) (hs : aes.Succeeds) (hi : aes.Inverts)
    (wa wb : WireLabel) (hwa : wa.WF) (hwb : wb.WF) (iv1 iv2 : List Nat) (hiv1 : IsBytes 16 iv1)
    (hiv2 : IsBytes 16 iv2) (x : Nat) (hx : x < 256) :
    Circuit.decryptEntry aes wa wb
        ⟨iv1 ++ iv2 ++ (aes.crypt_cbc AES_ENCRYPT wb.key 32 iv2
          (aes.crypt_cbc AES_ENCRYPT wa.key 32 iv1 (x :: List.replicate 31 0)).output).output⟩
      = some (x == 1) := by
  have hp : IsBytes 32 (x :: List.replicate 31 0) := by
    refine ⟨by simp, ?_⟩
    intro y hy
    rcases List.mem_cons.1 hy with rfl | h
    · exact hx
    · rw [List.eq_of_mem_replicate h]; norm_num
  have ht := hs.crypt_bytes AES_ENCRYPT wa.key _ _ hwa hiv1 hp
  have hc := hs.crypt_bytes AES_ENCRYPT wb.key _ _ hwb hiv2 ht
  obtain ⟨l1, l2, l3⟩ := take_drop_layout _ _ _ hiv1.1 hiv2.1 hc.1
  have i2 := hi wb.key _ _ hwb hiv2 ht
  have i1 := hi wa.key _ _ hwa hiv1 hp
  have hP : decryptEntry.plaintext aes wa wb
      ⟨iv1 ++ iv2 ++ (aes.crypt_cbc AES_ENCRYPT wb.key 32 iv2
        (aes.crypt_cbc AES_ENCRYPT wa.key 32 iv1 (x :: List.replicate 31 0)).output).output⟩
      = x :: List.replicate 31 0 := by
    simp only [decryptEntry.plaintext, ENTRY_SIZE, l1, l2, l3, i2, i1]
  have hz : decryptEntry.zeroCheck (x :: List.replicate 31 0) 1 31 = true := by
    rw [zeroCheck_iff]
    intro k h1 h2
    obtain ⟨m, rfl⟩ : ∃ m, k = m + 1 := ⟨k - 1, by omega⟩
    rw [List.getD_cons_succ]
    exact getD_replicate_zero 31 m
  rw [decryptEntry_of_ok aes wa wb _ (hs.setkey_dec_ok _ hwb) ?_ (hs.setkey_dec_ok _ hwa) ?_]
  · rw [hP, hz]
    simp
  · rw [l2, l3]; exact hs.crypt_ok _ _ _ _ hwb hiv2 hc
  · rw [l1, l2, l3, i2]; exact hs.crypt_ok _ _ _ _ hwa hiv1 ht

theorem decrypt_encrypt (aes : Aes) (hs : aes.Succeeds) (hi : aes.Inverts) (c : Circuit)
    (wa wb : WireLabel) (hwa : wa.WF) (hwb : wb.WF) (entry : TableEntry) (he : entry.WF)
    (result : Bool) :
    Circuit.decryptEntry aes wa wb (Circuit.encryptEntry aes c wa wb entry result).2
      = some result := by
  have hE := encryptEntry_snd aes hs c wa wb hwa hwb entry he result
  rw [entryPlaintext_eq] at hE
  have hN := decryptEntry_nested aes hs hi wa wb hwa hwb _ _ (isBytes_random c.ctr_drbg 16)
    (isBytes_random (c.ctr_drbg.random 16).1 16) (if result then 1 else 0)
    (by cases result <;> decide)
  rw [← hE] at hN
  rw [hN]
  cases result <;> rfl

theorem encryptEntry_fst (aes : Aes) (c : Circuit) (wa wb : WireLabel) (entry : TableEntry)
    (result : Bool) :
    (Circuit.encryptEntry aes c wa wb entry result).1 = c.afterDraws 32 := by
  have h : ∀ i : Nat, i + 16 + 16 = i + 32 := fun i => by omega
  simp only [Circuit.encryptEntry, CtrDrbg.random, Circuit.afterDraws]
  split_ifs <;> simp [h]

theorem afterDraws_afterDraws (c : Circuit) (m n : Nat) :
    (c.afterDraws m).afterDraws n = c.afterDraws (m + n) := by
  simp only [Circuit.afterDraws, Circuit.mk.injEq, CtrDrbg.mk.injEq, and_true]
  funext i
  rw [Nat.add_comm m n, Nat.add_assoc]

theorem afterDraws_zero (c : Circuit) : c.afterDraws 0 = c := rfl

theorem createGarbledANDTable_unfold (aes : Aes) (c : Circuit) (a0 a1 b0 b1 : WireLabel)
    (table : List TableEntry) (h : 4 ≤ table.length) :
    Circuit.createGarbledANDTable aes c a0 a1 b0 b1 table
      = (c.afterDraws 128,
          [(Circuit.encryptEntry aes c a0 b0 (table.getD 0 default) false).2,
           (Circuit.encryptEntry aes (c.afterDraws 32) a0 b1 (table.getD 1 default) false).2,
           (Circuit.encryptEntry aes (c.afterDraws 64) a1 b0 (table.getD 2 default) false).2,
           (Circuit.encryptEntry aes (c.afterDraws 96) a1 b1 (table.getD 3 default) true).2]
          ++ table.drop 4) := by
  obtain ⟨t0, t1, t2, t3, rest, rfl⟩ : ∃ t0 t1 t2 t3 rest, table = t0 :: t1 :: t2 :: t3 :: rest := by
    match table, h with
    | t0 :: t1 :: t2 :: t3 :: rest, _ => exact ⟨t0, t1, t2, t3, rest, rfl⟩
  simp [Circuit.createGarbledANDTable, List.range_succ, encryptEntry_fst, afterDraws_afterDraws]

theorem createGarbledANDTable_getD (aes : Aes) (c : Circuit) (a0 a1 b0 b1 : WireLabel)
    (table : List TableEntry) (h : 4 ≤ table.length) (i j : Bool) :
    (Circuit.createGarbledANDTable aes c a0 a1 b0 b1 table).2.getD
        (2 * i.toNat + j.toNat) default
      = (Circuit.encryptEntry aes (c.afterDraws (32 * (2 * i.toNat + j.toNat)))
          (if i then a1 else a0) (if j then b1 else b0)
          (table.getD (2 * i.toNat + j.toNat) default) (i && j)).2 := by
  rw [createGarbledANDTable_unfold aes c a0 a1 b0 b1 table h]
  cases i <;> cases j <;> simp [afterDraws_zero]

/-- With any cipher that meets the AES assumptions: when both labels of each wire are equal, the
labels for inputs (1, 1) open entry 0, and the evaluation returns 0. -/
theorem evaluate_equal_labels (aes : Aes) (hs : aes.Succeeds) (hi : aes.Inverts) (c : Circuit)
    (a b : WireLabel) (ha : a.WF) (hb : b.WF) (table : List TableEntry)
    (hlen : 4 ≤ table.length) (h0 : (table.getD 0 default).WF) :
    evaluate_and_table aes a b (Circuit.createGarbledANDTable aes c a a b b table).2
      = some false := by
  have hent := createGarbledANDTable_getD aes c a a b b table hlen false false
  simp only [Bool.toNat_false, Nat.mul_zero, Nat.add_zero, Bool.false_eq_true, if_false,
    Bool.and_self] at hent
  have hhit := decrypt_encrypt aes hs hi (c.afterDraws 0) a b ha hb _ h0 false
  rw [← hent, List.getD_eq_getElem?_getD] at hhit
  simp only [evaluate_and_table, TABLE_SIZE]
  rw [show List.range 4 = [0, 1, 2, 3] by rfl]
  simp [List.findSome?, hhit]

/-! ## The stand-in cipher satisfies the AES assumptions -/

theorem xorBytes_length (a b : List Nat) : (xorBytes a b).length = min a.length b.length := by
  simp [xorBytes]

theorem xorBytes_cancel (a b : List Nat) (h : a.length ≤ b.length) :
    xorBytes (xorBytes a b) b = a := by
  induction a generalizing b with
  | nil => simp [xorBytes]
  | cons x xs ih =>
    cases b with
    | nil => simp at h
    | cons y ys =>
      simp only [xorBytes, List.zipWith_cons_cons, List.cons.injEq]
      refine ⟨?_, ih ys (by simpa using h)⟩
      rw [Nat.xor_assoc, Nat.xor_self, Nat.xor_zero]

theorem xorBytes_lt (a b : List Nat) (ha : ∀ x ∈ a, x < 256) (hb : ∀ x ∈ b, x < 256) :
    ∀ x ∈ xorBytes a b, x < 256 := by
  induction a generalizing b with
  | nil => simp [xorBytes]
  | cons x xs ih =>
    cases b with
    | nil => simp [xorBytes]
    | cons y ys =>
      intro z hz
      simp only [xorBytes, List.zipWith_cons_cons, List.mem_cons] at hz
      rcases hz with rfl | hz
      · exact Nat.xor_lt_two_pow (n := 8) (ha x (by simp)) (hb y (by simp))
      · exact ih ys (fun w hw => ha w (by simp [hw])) (fun w hw => hb w (by simp [hw])) z hz

theorem toyPad_isBytes (key iv : List Nat) (hk : IsBytes 16 key) (hv : IsBytes 16 iv) :
    IsBytes 32 (xorBytes key iv ++ xorBytes key iv) := by
  refine ⟨by simp [xorBytes_length, hk.1, hv.1], ?_⟩
  intro x hx
  rcases List.mem_append.1 hx with h | h <;> exact xorBytes_lt _ _ hk.2 hv.2 x h

theorem toyAes_succeeds : toyAes.Succeeds where
  setkey_enc_ok := fun _ _ => rfl
  setkey_dec_ok := fun _ _ => rfl
  crypt_ok := fun _ _ _ _ _ _ _ => rfl
  crypt_bytes := by
    intro mode key iv input hk hv hin
    have hp := toyPad_isBytes key iv hk hv
    exact ⟨by simp [toyAes, xorBytes_length, hin.1, hp.1], xorBytes_lt _ _ hin.2 hp.2⟩

theorem toyAes_inverts : toyAes.Inverts := by
  intro key iv input hk hv hin
  have hp := toyPad_isBytes key iv hk hv
  exact xorBytes_cancel _ _ (by rw [hin.1, hp.1])

/-! ## The claims about the garbled AND gate -/

/-- C3: round trip of one table entry. For all wire labels `wa`, `wb`, every result bit and every
state of the DRBG (hence every pair of IVs drawn), `decryptEntry` applied to the entry written by
`encryptEntry` returns true with `result` equal to the encrypted bit, given that the AES calls
succeed and that CBC decryption under a key and IV inverts CBC encryption under them. -/
theorem decryptEntry_encryptEntry_roundtrip (aes : Aes) (hs : aes.Succeeds) (hi : aes.Inverts)
    (c : Circuit) (wa wb : WireLabel) (hwa : wa.WF) (hwb : wb.WF) (entry : TableEntry)
    (he : entry.WF) (result : Bool) :
    Circuit.decryptEntry aes wa wb (Circuit.encryptEntry aes c wa wb entry result).2
      = some result :=
  decrypt_encrypt aes hs hi c wa wb hwa hwb entry he result

/-- C3 at a concrete input: the stand-in cipher, result bit 1. -/
theorem decryptEntry_encryptEntry_roundtrip_witness :
    toyAes.Succeeds ∧ toyAes.Inverts ∧ demoA1.WF ∧ demoB0.WF ∧ demoEntry.WF
      ∧ Circuit.decryptEntry toyAes demoA1 demoB0
          (Circuit.encryptEntry toyAes demoCircuit demoA1 demoB0 demoEntry true).2 = some true :=
  ⟨toyAes_succeeds, toyAes_inverts, by decide, by decide, by decide,
    decryptEntry_encryptEntry_roundtrip toyAes toyAes_succeeds toyAes_inverts demoCircuit demoA1
      demoB0 (by decide) (by decide) demoEntry (by decide) true⟩

/-- C6: when the AES calls succeed, the 64 bytes `encryptEntry` writes are `iv1 ‖ iv2 ‖ c`, where
`iv1` is the first and `iv2` the second 16-byte draw from the DRBG (the values as drawn, not
what CBC leaves in the IV buffers), `P` is `result` followed by 31 zero bytes,
`t = CBC-Enc(wa.key, iv1, P)` and `c = CBC-Enc(wb.key, iv2, t)`. -/
theorem encryptEntry_bytes (aes : Aes) (hs : aes.Succeeds) (c : Circuit) (wa wb : WireLabel)
    (hwa : wa.WF) (hwb : wb.WF) (entry : TableEntry) (he : entry.WF) (result : Bool) :
    (Circuit.encryptEntry aes c wa wb entry result).2.encrypted
      = (List.range 16).map (fun i => c.ctr_drbg.out i % 256)
        ++ (List.range 16).map (fun i => c.ctr_drbg.out (i + 16) % 256)
        ++ (aes.crypt_cbc AES_ENCRYPT wb.key 32
              ((List.range 16).map (fun i => c.ctr_drbg.out (i + 16) % 256))
              (aes.crypt_cbc AES_ENCRYPT wa.key 32
                ((List.range 16).map (fun i => c.ctr_drbg.out i % 256))
                ((if result then 1 else 0) :: List.replicate 31 0)).output).output
      ∧ (Circuit.encryptEntry aes c wa wb entry result).2.encrypted.length = 64 := by
  have h := encryptEntry_snd aes hs c wa wb hwa hwb entry he result
  rw [entryPlaintext_eq] at h
  have hiv1 := isBytes_random c.ctr_drbg 16
  have hiv2 := isBytes_random (c.ctr_drbg.random 16).1 16
  have hp := isBytes_entryPlaintext result
  rw [entryPlaintext_eq] at hp
  have ht := hs.crypt_bytes AES_ENCRYPT wa.key _ _ hwa hiv1 hp
  have hc := hs.crypt_bytes AES_ENCRYPT wb.key _ _ hwb hiv2 ht
  refine ⟨h, ?_⟩
  rw [h, List.length_append, List.length_append, hiv1.1, hiv2.1, hc.1]

/-- C6 at a concrete input: the stand-in cipher, result bit 1. -/
theorem encryptEntry_bytes_witness :
    toyAes.Succeeds ∧ demoA1.WF ∧ demoB0.WF ∧ demoEntry.WF
      ∧ (Circuit.encryptEntry toyAes demoCircuit demoA1 demoB0 demoEntry true).2.encrypted.length
          = 64 :=
  ⟨toyAes_succeeds, by decide, by decide, by decide,
    (encryptEntry_bytes toyAes toyAes_succeeds demoCircuit demoA1 demoB0 (by decide) (by decide)
      demoEntry (by decide) true).2⟩

/-- C4, counterexample: an entry whose nested decryption is the plaintext `02 00 .. 00` is
accepted by `decryptEntry` (with `result = false`), although byte 0 of the plaintext is neither
0 nor 1; so acceptance is not equivalent to "bytes 1..31 are zero and byte 0 is 0 or 1". -/
theorem decryptEntry_accepts_first_byte_two :
    decryptEntry.plaintext toyAes demoA0 demoB0 forgedEntry = 2 :: List.replicate 31 0
      ∧ Circuit.decryptEntry toyAes demoA0 demoB0 forgedEntry = some false
      ∧ ¬ ((Circuit.decryptEntry toyAes demoA0 demoB0 forgedEntry).isSome = true ↔
            ((∀ k, 1 ≤ k → k < 32 →
                (decryptEntry.plaintext toyAes demoA0 demoB0 forgedEntry).getD k 0 = 0)
              ∧ ((decryptEntry.plaintext toyAes demoA0 demoB0 forgedEntry).getD 0 0 = 0
                ∨ (decryptEntry.plaintext toyAes demoA0 demoB0 forgedEntry).getD 0 0 = 1))) := by
  have hP : decryptEntry.plaintext toyAes demoA0 demoB0 forgedEntry = 2 :: List.replicate 31 0 := by
    decide
  have hD : Circuit.decryptEntry toyAes demoA0 demoB0 forgedEntry = some false := by decide
  refine ⟨hP, hD, ?_⟩
  rw [hD, hP]
  simp

/-- C4, amended: `decryptEntry` accepts if and only if its four AES calls return 0 and bytes
1..31 of the plaintext `P` of the nested decryption are all zero; byte 0 is not checked. When it
accepts, the returned bit is true exactly when byte 0 of `P` equals 1. -/
theorem decryptEntry_accepts_iff (aes : Aes) (wa wb : WireLabel) (entry : TableEntry) :
    ((Circuit.decryptEntry aes wa wb entry).isSome = true ↔
        (decryptEntry.callsSucceed aes wa wb entry
          ∧ ∀ k, 1 ≤ k → k < 32 → (decryptEntry.plaintext aes wa wb entry).getD k 0 = 0))
      ∧ ∀ r, Circuit.decryptEntry aes wa wb entry = some r →
          r = decide ((decryptEntry.plaintext aes wa wb entry).getD 0 0 = 1) := by
  have hz := zeroCheck_iff (decryptEntry.plaintext aes wa wb entry) 31 1
  by_cases hc : decryptEntry.callsSucceed aes wa wb entry
  · obtain ⟨k1, r1, k2, r2⟩ := hc
    have hc : decryptEntry.callsSucceed aes wa wb entry := ⟨k1, r1, k2, r2⟩
    rw [decryptEntry_of_ok aes wa wb entry k1 r1 k2 r2]
    by_cases hchk : decryptEntry.zeroCheck (decryptEntry.plaintext aes wa wb entry) 1 31 = true
    · have hall := hz.1 hchk
      simp only [hchk, Bool.true_eq_false, if_false, Option.isSome_some, true_iff,
        Option.some.injEq]
      refine ⟨⟨hc, fun k a b => hall k a (by omega)⟩, ?_⟩
      intro r hr
      rw [← hr]
      exact Bool.eq_iff_iff.2 (by simp)
    · have hchk2 : decryptEntry.zeroCheck (decryptEntry.plaintext aes wa wb entry) 1 31 = false := by
        simpa using hchk
      simp only [hchk2, if_true, Option.isSome_none, Bool.false_eq_true, false_iff, not_and]
      refine ⟨fun _ hall => hchk (hz.2 (fun k a b => hall k a (by omega))), ?_⟩
      intro r hr; cases hr
  · have hnone : Circuit.decryptEntry aes wa wb entry = none := by
      simp only [decryptEntry.callsSucceed, not_and] at hc
      simp only [Circuit.decryptEntry, ne_eq]
      by_cases k1 : aes.setkey_dec wb.key 128 = 0
      · by_cases r1 : (aes.crypt_cbc AES_DECRYPT wb.key ENTRY_SIZE ((entry.encrypted.drop 16).take 16)
            ((entry.encrypted.drop 32).take ENTRY_SIZE)).ret = 0
        · by_cases k2 : aes.setkey_dec wa.key 128 = 0
          · have r2 := hc k1 r1 k2
            simp [k1, r1, k2, r2]
          · simp [k1, r1, k2]
        · simp [k1, r1]
      · simp [k1]
    rw [hnone]
    simp [hc]

/-- C5: `createGarbledANDTable` writes exactly the entries `table[0..3]`: the array keeps its
length, entries from index 4 on are untouched, and for every `(i, j)` the entry at index `2i + j`
is what `encryptEntry(a_i, b_j, i AND j)` writes with the IVs drawn at that step, which is step
`2i + j` of the row-major visit (the DRBG has handed out `32 * (2i + j)` bytes before it, and 128
bytes after the last step). -/
theorem createGarbledANDTable_entries (aes : Aes) (c : Circuit) (a0 a1 b0 b1 : WireLabel)
    (table : List TableEntry) (h : 4 ≤ table.length) :
    (Circuit.createGarbledANDTable aes c a0 a1 b0 b1 table).2.length = table.length
      ∧ (∀ k, 4 ≤ k → (Circuit.createGarbledANDTable aes c a0 a1 b0 b1 table).2.getD k default
            = table.getD k default)
      ∧ (∀ i j : Bool,
          (Circuit.createGarbledANDTable aes c a0 a1 b0 b1 table).2.getD
              (2 * i.toNat + j.toNat) default
            = (Circuit.encryptEntry aes (c.afterDraws (32 * (2 * i.toNat + j.toNat)))
                (if i then a1 else a0) (if j then b1 else b0)
                (table.getD (2 * i.toNat + j.toNat) default) (i && j)).2)
      ∧ (Circuit.createGarbledANDTable aes c a0 a1 b0 b1 table).1 = c.afterDraws 128 := by
  refine ⟨?_, ?_, createGarbledANDTable_getD aes c a0 a1 b0 b1 table h, ?_⟩ <;>
    rw [createGarbledANDTable_unfold aes c a0 a1 b0 b1 table h]
  · simp only [List.length_append, List.length_cons, List.length_nil, List.length_drop]
    omega
  · intro k hk
    obtain ⟨m, rfl⟩ : ∃ m, k = 4 + m := ⟨k - 4, by omega⟩
    rw [List.getD_eq_getElem?_getD, List.getD_eq_getElem?_getD,
      List.getElem?_append_right (by simp), List.getElem?_drop]
    simp

/-- C5 at a concrete input: a four-entry array. -/
theorem createGarbledANDTable_entries_witness :
    4 ≤ demoTable.length
      ∧ (Circuit.createGarbledANDTable toyAes demoCircuit demoA0 demoA1 demoB0 demoB1
          demoTable).2.length = demoTable.length :=
  ⟨by decide,
    (createGarbledANDTable_entries toyAes demoCircuit demoA0 demoA1 demoB0 demoB1 demoTable
      (by decide)).1⟩

/-- C2, counterexample: when both labels of wire A are equal and both labels of wire B are equal,
evaluating the table with the labels for inputs (1, 1) returns 0 and not 1 AND 1, because entry 0
already validates under them. -/
theorem evaluate_and_table_equal_labels :
    evaluate_and_table toyAes demoA0 demoB0
        (Circuit.createGarbledANDTable toyAes demoCircuit demoA0 demoA0 demoB0 demoB0
          demoTable).2 = some false
      ∧ evaluate_and_table toyAes demoA0 demoB0
        (Circuit.createGarbledANDTable toyAes demoCircuit demoA0 demoA0 demoB0 demoB0
          demoTable).2 ≠ some (true && true) := by
  decide

/-- C2, amended: for all wire labels, all IVs drawn while building the table and every `(i, j)`,
if `decryptEntry` rejects every table entry of index below `2i + j` under `(A_i, B_j)`, then
trying the four entries in index order returns `i AND j` (the AES calls succeed and CBC
decryption inverts CBC encryption). -/
theorem evaluate_and_table_correct (aes : Aes) (hs : aes.Succeeds) (hi : aes.Inverts)
    (c : Circuit) (a0 a1 b0 b1 : WireLabel) (ha0 : a0.WF) (ha1 : a1.WF) (hb0 : b0.WF)
    (hb1 : b1.WF) (table : List TableEntry) (hlen : 4 ≤ table.length)
    (htab : ∀ k, k < 4 → (table.getD k default).WF) (i j : Bool)
    (hmiss : ∀ k, k < 2 * i.toNat + j.toNat →
      Circuit.decryptEntry aes (if i then a1 else a0) (if j then b1 else b0)
        ((Circuit.createGarbledANDTable aes c a0 a1 b0 b1 table).2.getD k default) = none) :
    evaluate_and_table aes (if i then a1 else a0) (if j then b1 else b0)
      (Circuit.createGarbledANDTable aes c a0 a1 b0 b1 table).2 = some (i && j) := by
  have hwa : (if i then a1 else a0).WF := by cases i <;> simpa
  have hwb : (if j then b1 else b0).WF := by cases j <;> simpa
  have hent := createGarbledANDTable_getD aes c a0 a1 b0 b1 table hlen i j
  have hidx : 2 * i.toNat + j.toNat < 4 := by cases i <;> cases j <;> decide
  have hhit : Circuit.decryptEntry aes (if i then a1 else a0) (if j then b1 else b0)
      ((Circuit.createGarbledANDTable aes c a0 a1 b0 b1 table).2.getD
        (2 * i.toNat + j.toNat) default) = some (i && j) := by
    rw [hent]
    exact decrypt_encrypt aes hs hi _ _ _ hwa hwb _ (htab _ hidx) _
  revert hmiss hhit
  generalize (Circuit.createGarbledANDTable aes c a0 a1 b0 b1 table).2 = T
  generalize (if i then a1 else a0) = wa
  generalize (if j then b1 else b0) = wb
  intro hmiss hhit
  simp only [List.getD_eq_getElem?_getD] at hmiss hhit
  simp only [evaluate_and_table, TABLE_SIZE]
  rw [show List.range 4 = [0, 1, 2, 3] by rfl]
  cases i <;> cases j
  · simp only [Bool.toNat_false, Nat.mul_zero, Nat.add_zero] at hhit
    simp [List.findSome?, hhit]
  · simp only [Bool.toNat_false, Bool.toNat_true, Nat.mul_zero, Nat.zero_add] at hhit hmiss
    simp [List.findSome?, hhit, hmiss 0 (by omega)]
  · simp only [Bool.toNat_false, Bool.toNat_true, Nat.mul_one, Nat.add_zero] at hhit hmiss
    simp [List.findSome?, hhit, hmiss 0 (by omega), hmiss 1 (by omega)]
  · simp only [Bool.toNat_true, Nat.mul_one] at hhit hmiss
    simp [List.findSome?, hhit, hmiss 0 (by omega), hmiss 1 (by omega), hmiss 2 (by omega)]

/-- C2 (amended) at a concrete input: four distinct labels, inputs (1, 1). -/
theorem evaluate_and_table_correct_witness :
    toyAes.Succeeds ∧ toyAes.Inverts ∧ demoA0.WF ∧ demoA1.WF ∧ demoB0.WF ∧ demoB1.WF
      ∧ 4 ≤ demoTable.length ∧ (∀ k, k < 4 → (demoTable.getD k default).WF)
      ∧ (∀ k, k < 2 * true.toNat + true.toNat →
          Circuit.decryptEntry toyAes demoA1 demoB1
            ((Circuit.createGarbledANDTable toyAes demoCircuit demoA0 demoA1 demoB0 demoB1
              demoTable).2.getD k default) = none)
      ∧ evaluate_and_table toyAes demoA1 demoB1
          (Circuit.createGarbledANDTable toyAes demoCircuit demoA0 demoA1 demoB0 demoB1
            demoTable).2 = some true :=
  ⟨toyAes_succeeds, toyAes_inverts, by decide, by decide, by decide, by decide, by decide,
    by decide, by decide,
    evaluate_and_table_correct toyAes toyAes_succeeds toyAes_inverts demoCircuit demoA0 demoA1
      demoB0 demoB1 (by decide) (by decide) (by decide) (by decide) demoTable (by decide)
      (by decide) true true (by decide)⟩

end GarbledCircuit

open GarbledCircuit ObliviousTransfer

/-! # Theorems about the oblivious transfer -/

/-! ## Lemmas about masking and buffers -/

theorem xorMask_length (input key : List Nat) : (xorMask input key).length = 17 := by
  simp [xorMask, WIRE_LABEL_SIZE, KEY_SIZE]

theorem xorMask_getD (input key : List Nat) (i : Nat) (hi : i < 17) :
    (xorMask input key).getD i 0 = input.getD i 0 ^^^ key.getD (i % 32) 0 := by
  simp [xorMask, WIRE_LABEL_SIZE, KEY_SIZE, List.getD_eq_getElem?_getD, hi]

theorem map_getD_range (l : List Nat) : (List.range l.length).map (fun i => l.getD i 0) = l := by
  apply List.ext_getElem
  · simp
  · intro i h1 h2
    simp [List.getD_eq_getElem?_getD, List.getElem?_eq_getElem h2]

theorem xorMask_xorMask (input key : List Nat) (h : input.length = 17) :
    xorMask (xorMask input key) key = input := by
  have e : xorMask (xorMask input key) key = (List.range input.length).map (fun i => input.getD i 0) := by
    rw [h]
    unfold xorMask
    simp only [WIRE_LABEL_SIZE, KEY_SIZE]
    apply List.map_congr_left
    intro i hi
    have hi2 : i < 17 := by simpa using hi
    have := xorMask_getD input key i hi2
    simp only [xorMask, WIRE_LABEL_SIZE, KEY_SIZE] at this
    rw [this, Nat.xor_assoc, Nat.xor_self, Nat.xor_zero]
  rw [e, map_getD_range]

theorem toBytes_length (l : WireLabel) (h : l.WF) : l.toBytes.length = 17 := by
  simp [WireLabel.toBytes, h.1, KEY_SIZE]

theorem ofBytes_toBytes (l : WireLabel) (h : l.WF) : WireLabel.ofBytes l.toBytes = l := by
  obtain ⟨key, p⟩ := l
  have hk : key.length = 16 := h.1
  simp only [WireLabel.ofBytes, WireLabel.toBytes, KEY_SIZE, WireLabel.mk.injEq]
  constructor
  · rw [← hk, List.take_left]
  · rw [List.getD_eq_getElem?_getD, List.getElem?_append_right (by omega), hk]
    cases p <;> simp

theorem buffer_of_length (n : Nat) (data : List Nat) (h : data.length = n) :
    buffer n data = data := by
  unfold buffer
  rw [← h, List.take_left]

theorem buffer_length (n : Nat) (data : List Nat) : (buffer n data).length = n := by
  simp [buffer]

theorem take_drop_pair (e0 e1 : List Nat) (h0 : e0.length = 17) (h1 : e1.length = 17) :
    (e0 ++ e1).take 17 = e0 ∧ ((e0 ++ e1).drop 17).take 17 = e1 := by
  constructor
  · rw [← h0, List.take_left]
  · rw [← h0, List.drop_left, h0, ← h1, List.take_length]

/-! ## Big-endian encoding -/

theorem mpi_read_binary_append (l : List Nat) (x : Nat) :
    mpi_read_binary (l ++ [x]) = mpi_read_binary l * 256 + x := by
  simp [mpi_read_binary, List.foldl_append]

theorem mpi_read_binary_map_range (f : Nat → Nat) (n : Nat) :
    mpi_read_binary ((List.range n).map f) = ∑ i in Finset.range n, f i * 256 ^ (n - 1 - i) := by
  induction n with
  | zero => simp [mpi_read_binary]
  | succ n ih =>
    rw [List.range_succ, List.map_append, List.map_singleton, mpi_read_binary_append, ih,
      Finset.sum_range_succ, Finset.sum_mul]
    congr 1
    · apply Finset.sum_congr rfl
      intro i hi
      have hi2 : i < n := Finset.mem_range.1 hi
      rw [mul_assoc, ← pow_succ]
      congr 2
      omega
    · simp

theorem mpi_write_binary_length (X n : Nat) : (mpi_write_binary X n).length = n := by
  induction n generalizing X with
  | zero => rfl
  | succ n ih => simp [mpi_write_binary, ih]

theorem mpi_write_binary_lt (X n : Nat) : ∀ x ∈ mpi_write_binary X n, x < 256 := by
  induction n generalizing X with
  | zero => simp [mpi_write_binary]
  | succ n ih =>
    intro x hx
    simp only [mpi_write_binary, List.mem_append, List.mem_singleton] at hx
    rcases hx with h | rfl
    · exact ih _ x h
    · exact Nat.mod_lt _ (by norm_num)

theorem mpi_read_write (X n : Nat) : mpi_read_binary (mpi_write_binary X n) = X % 256 ^ n := by
  induction n generalizing X with
  | zero => simp [mpi_write_binary, mpi_read_binary, Nat.mod_one]
  | succ n ih =>
    rw [mpi_write_binary, mpi_read_binary_append, ih, pow_succ, Nat.mul_comm (256 ^ n) 256,
      Nat.mod_mul]
    ring

theorem drbgOf_random (bytes : List Nat) (h : ∀ x ∈ bytes, x < 256) :
    ((drbgOf bytes).random bytes.length).2 = bytes := by
  simp only [CtrDrbg.random, drbgOf]
  apply List.ext_getElem
  · simp
  · intro i h1 h2
    simp only [List.getElem_map, List.getElem_range, List.getD_eq_getElem?_getD,
      List.getElem?_eq_getElem h2, Option.getD_some]
    exact Nat.mod_eq_of_lt (h _ (List.getElem_mem _))

theorem scalar_of_encoding {Pt : Type} (grp : EcpGroup Pt) (s : Nat) (hs : s < grp.N)
    (hN : grp.N ≤ 2 ^ 256) :
    (ECCHelper.generateRandomScalar ⟨drbgOf (mpi_write_binary s 32), grp⟩).2 = s := by
  have h := drbgOf_random (mpi_write_binary s 32) (mpi_write_binary_lt s 32)
  rw [mpi_write_binary_length] at h
  have e1 : s % 256 ^ 32 = s := Nat.mod_eq_of_lt (by norm_num at hN ⊢; omega)
  simp only [ECCHelper.generateRandomScalar, h, mpi_read_write, e1, Nat.mod_eq_of_lt hs]

/-! ## Lemmas about the key points -/

section Curve

variable {Pt : Type} [AddCommGroup Pt]

theorem sub_via_order (N : Nat) (hN : 0 < N) (A B : Pt) (hA : N • A = 0) :
    ecp_muladd 1 B (N - 1) A = B - A := by
  have h : (N - 1) • A + A = 0 := by
    rw [← succ_nsmul, Nat.sub_add_cancel hN, hA]
  unfold ecp_muladd
  rw [one_smul, eq_neg_of_add_eq_zero_left h, sub_eq_add_neg]

theorem read_A_buf (lib : Mbedtls Pt) (hc : lib.CodecOK) (ecc : ECCHelper Pt) :
    (lib.ecp_point_read_binary (sendWireLabels.A_buf lib ecc)).2 = sendWireLabels.A ecc := by
  rw [sendWireLabels.A_buf, buffer_of_length ECC_POINT_SIZE _ (hc.write_length _), hc.read_write]

theorem read_B_buf (lib : Mbedtls Pt) (hc : lib.CodecOK) (ecc : ECCHelper Pt) (choice : Bool)
    (A_buf : List Nat) :
    (lib.ecp_point_read_binary (receiveWireLabel.B_buf lib ecc choice A_buf)).2
      = receiveWireLabel.B lib ecc choice A_buf := by
  rw [receiveWireLabel.B_buf, buffer_of_length ECC_POINT_SIZE _ (hc.write_length _), hc.read_write]

/-- With `a`, `b` the two scalars: `K = b * (a * G)`, `K0 = a * B`, `K1 = a * (B - A)`. -/
theorem key_points (lib : Mbedtls Pt) (hc : lib.CodecOK) (grp : EcpGroup Pt) (hN : 0 < grp.N)
    (hG : grp.N • grp.G = 0) (dG dE : CtrDrbg) (choice : Bool) :
    receiveWireLabel.k_point lib ⟨dE, grp⟩ (sendWireLabels.A_buf lib ⟨dG, grp⟩)
        = (sendWireLabels.a (⟨dG, grp⟩ : ECCHelper Pt) * receiveWireLabel.b (⟨dE, grp⟩ : ECCHelper Pt)) • grp.G
      ∧ sendWireLabels.k0_point lib ⟨dG, grp⟩
          (receiveWireLabel.B_buf lib ⟨dE, grp⟩ choice (sendWireLabels.A_buf lib ⟨dG, grp⟩))
        = (sendWireLabels.a (⟨dG, grp⟩ : ECCHelper Pt) * receiveWireLabel.b (⟨dE, grp⟩ : ECCHelper Pt)) • grp.G
          + (if choice then (sendWireLabels.a (⟨dG, grp⟩ : ECCHelper Pt) * sendWireLabels.a (⟨dG, grp⟩ : ECCHelper Pt)) • grp.G else 0)
      ∧ sendWireLabels.k1_point lib ⟨dG, grp⟩
          (receiveWireLabel.B_buf lib ⟨dE, grp⟩ choice (sendWireLabels.A_buf lib ⟨dG, grp⟩))
        = (sendWireLabels.a (⟨dG, grp⟩ : ECCHelper Pt) * receiveWireLabel.b (⟨dE, grp⟩ : ECCHelper Pt)) • grp.G
          - (if choice then 0 else (sendWireLabels.a (⟨dG, grp⟩ : ECCHelper Pt) * sendWireLabels.a (⟨dG, grp⟩ : ECCHelper Pt)) • grp.G) := by
  generalize ha : sendWireLabels.a (⟨dG, grp⟩ : ECCHelper Pt) = a
  generalize hb : receiveWireLabel.b (⟨dE, grp⟩ : ECCHelper Pt) = b
  have hA : sendWireLabels.A (⟨dG, grp⟩ : ECCHelper Pt) = a • grp.G := by
    simp [sendWireLabels.A, ecp_mul, ha]
  have hB : receiveWireLabel.B lib ⟨dE, grp⟩ choice (sendWireLabels.A_buf lib ⟨dG, grp⟩)
      = b • grp.G + (if choice then a • grp.G else 0) := by
    simp only [receiveWireLabel.B, read_A_buf lib hc, hA, hb, ecp_mul, ecp_muladd, one_smul]
    cases choice <;> simp [add_comm]
  refine ⟨?_, ?_, ?_⟩
  · simp only [receiveWireLabel.k_point, read_A_buf lib hc, hA, hb, ECCHelper.pointMultiply,
      ecp_mul]
    rw [smul_smul, mul_comm]
  · simp only [sendWireLabels.k0_point, read_B_buf lib hc, hB, ha, ECCHelper.pointMultiply,
      ecp_mul]
    cases choice <;> simp [smul_add, smul_smul]
  · simp only [sendWireLabels.k1_point, read_B_buf lib hc, hB, ha, hA, ECCHelper.pointMultiply,
      ecp_mul]
    rw [sub_via_order grp.N hN _ _ (by rw [smul_comm, hG, smul_zero])]
    cases choice <;> simp [smul_sub, smul_add, smul_smul]

theorem chosen_key_point (lib : Mbedtls Pt) (hc : lib.CodecOK) (grp : EcpGroup Pt)
    (hN : 0 < grp.N) (hG : grp.N • grp.G = 0) (dG dE : CtrDrbg) (choice : Bool) :
    (if choice then
        sendWireLabels.k1_point lib ⟨dG, grp⟩
          (receiveWireLabel.B_buf lib ⟨dE, grp⟩ choice (sendWireLabels.A_buf lib ⟨dG, grp⟩))
      else
        sendWireLabels.k0_point lib ⟨dG, grp⟩
          (receiveWireLabel.B_buf lib ⟨dE, grp⟩ choice (sendWireLabels.A_buf lib ⟨dG, grp⟩)))
      = receiveWireLabel.k_point lib ⟨dE, grp⟩ (sendWireLabels.A_buf lib ⟨dG, grp⟩) := by
  obtain ⟨h, h0, h1⟩ := key_points lib hc grp hN hG dG dE choice
  cases choice
  · simp only [Bool.false_eq_true, if_false] at h0 ⊢
    rw [h0, h, add_zero]
  · simp only [if_true] at h1 ⊢
    rw [h1, h, sub_zero]

end Curve

/-! ## Lemmas about the runs of the two parties -/

theorem scalar_lt {Pt : Type} (ecc : ECCHelper Pt) (h : 0 < ecc.group.N) :
    ecc.generateRandomScalar.2 < ecc.group.N := by
  simp only [ECCHelper.generateRandomScalar]
  exact Nat.mod_lt _ h

theorem write_binary_injective {Pt : Type} (lib : Mbedtls Pt) (hc : lib.CodecOK) (P Q : Pt) :
    lib.ecp_point_write_binary P = lib.ecp_point_write_binary Q ↔ P = Q := by
  constructor
  · intro h
    have := congrArg (fun x => (lib.ecp_point_read_binary x).2) h
    simpa [hc.read_write] using this
  · intro h; rw [h]

section Curve
variable {Pt : Type} [AddCommGroup Pt]

theorem nsmul_eq_iff_modEq (grp : EcpGroup Pt) (hgen : grp.GeneratorOK) (s t : Nat) :
    s • grp.G = t • grp.G ↔ s % grp.N = t % grp.N := by
  wlog hst : s ≤ t generalizing s t
  · rw [eq_comm, this t s (by omega), eq_comm]
  obtain ⟨d, rfl⟩ : ∃ d, t = s + d := ⟨t - s, by omega⟩
  rw [add_smul]
  constructor
  · intro h
    have h0 : d • grp.G = 0 := by
      have := h.symm
      rwa [add_right_eq_self] at this
    obtain ⟨q, rfl⟩ := (hgen d).1 h0
    simp
  · intro h
    have hd : grp.N ∣ d := by
      have : s ≡ s + d [MOD grp.N] := h
      have h2 := (Nat.modEq_iff_dvd' (by omega)).1 this
      simpa using h2
    rw [(hgen d).2 hd, add_zero]

theorem receiveWireLabel_run_first (lib : Mbedtls Pt) (ecc : ECCHelper Pt) (choice : Bool)
    (A_buf : List Nat) (h : A_buf.length = 65) :
    (receiveWireLabel lib ecc choice).run A_buf
      = (receiveWireLabel.B_buf lib ecc choice A_buf, none) := by
  have t1 : A_buf.take 65 = A_buf := List.take_of_length_le (by omega)
  simp [receiveWireLabel, Proc.run, ECC_POINT_SIZE, ECC_KEY_SIZE, WIRE_LABEL_SIZE, KEY_SIZE, h, t1]

theorem receiveWireLabel_run_all (lib : Mbedtls Pt) (ecc : ECCHelper Pt) (choice : Bool)
    (A_buf e : List Nat) (h : A_buf.length = 65) (he : e.length = 34) :
    (receiveWireLabel lib ecc choice).run (A_buf ++ e)
      = (receiveWireLabel.B_buf lib ecc choice A_buf,
          some (WireLabel.ofBytes (xorMask
            (if choice then (e.drop 17).take 17 else e.take 17)
            (lib.sha256 (lib.ecp_point_write_binary
              (receiveWireLabel.k_point lib ecc A_buf)))))) := by
  have t1 : (A_buf ++ e).take 65 = A_buf := by rw [← h, List.take_left]
  have t2 : (A_buf ++ e).drop 65 = e := by rw [← h, List.drop_left]
  have t3 : e.take 34 = e := List.take_of_length_le (by omega)
  simp [receiveWireLabel, Proc.run, ECC_POINT_SIZE, ECC_KEY_SIZE, WIRE_LABEL_SIZE, KEY_SIZE, h,
    he, t1, t2, t3]

theorem sendWireLabels_run (lib : Mbedtls Pt) (ecc : ECCHelper Pt) (label0 label1 : WireLabel)
    (B_buf : List Nat) (h : B_buf.length = 65) :
    (sendWireLabels lib ecc label0 label1).run B_buf
      = (sendWireLabels.A_buf lib ecc
          ++ (xorMask label0.toBytes (lib.sha256 (lib.ecp_point_write_binary
                (sendWireLabels.k0_point lib ecc B_buf)))
            ++ xorMask label1.toBytes (lib.sha256 (lib.ecp_point_write_binary
                (sendWireLabels.k1_point lib ecc B_buf)))),
          some ()) := by
  have t1 : B_buf.take 65 = B_buf := List.take_of_length_le (by omega)
  simp [sendWireLabels, Proc.run, ECC_POINT_SIZE, ECC_KEY_SIZE, h, t1]

end Curve

/-! ## The stand-in group satisfies the curve assumptions -/

theorem toyLib_codec : toyLib.CodecOK where
  write_length := fun P => by simp [toyLib]
  read_write := by
    intro P
    have h : P.val < 7 := ZMod.val_lt P
    simp [toyLib, h]

theorem toyGroup_order : toyGroup.OrderOK where
  N_pos := by decide
  N_smul := by decide

theorem toyGroup_generator : toyGroup.GeneratorOK := by
  intro k
  simp only [toyGroup, nsmul_eq_mul, mul_one]
  exact ZMod.natCast_zmod_eq_zero_iff_dvd k 7

/-! ## The claims about the oblivious transfer -/

section Curve
variable {Pt : Type} [AddCommGroup Pt]

/-- C1: one OT exchange delivers the chosen label. For all wire labels `label0`, `label1` (16 key
bytes and the permute byte), every choice bit and every state of the two DRBGs (hence all
scalars `a`, `b` they can produce), running `sendWireLabels` against `receiveWireLabel` over a
reliable ordered channel ends with `receiveWireLabel` returning exactly `label1` for choice 1 and
`label0` for choice 0, key bytes and permute bit alike. The curve is a commutative group with
`N * P = 0` for every point and `0 < N`, the point codec round-trips, SHA-256 is a function, and
any fuel of at least 8 scheduling steps is enough. -/
theorem runOT_delivers_chosen_label (lib : Mbedtls Pt) (hc : lib.CodecOK) (grp : EcpGroup Pt)
    (hg : grp.OrderOK) (dG dE : CtrDrbg) (label0 label1 : WireLabel) (h0 : label0.WF) (h1 : label1.WF)
    (choice : Bool) (fuel : Nat) (hf : 8 ≤ fuel) :
    runOT lib fuel ⟨dG, grp⟩ ⟨dE, grp⟩ label0 label1 choice
      = some ((), if choice then label1 else label0) := by
  obtain ⟨m, rfl⟩ : ∃ m, fuel = m + 8 := ⟨fuel - 8, by omega⟩
  have hk := chosen_key_point lib hc grp hg.N_pos (hg.N_smul _) dG dE choice
  have lA : (sendWireLabels.A_buf lib (⟨dG, grp⟩ : ECCHelper Pt)).length = 65 := buffer_length _ _
  have lB : ∀ A_buf, (receiveWireLabel.B_buf lib (⟨dE, grp⟩ : ECCHelper Pt) choice A_buf).length
      = 65 := fun _ => buffer_length _ _
  simp only [runOT, sendWireLabels, receiveWireLabel, Proc.connect, ECC_POINT_SIZE, ECC_KEY_SIZE,
    WIRE_LABEL_SIZE, KEY_SIZE, List.nil_append, List.length_nil, lA, lB, le_refl, if_true,
    List.take_length, List.drop_length, xorMask_length, List.length_append,
    Nat.reduceAdd, Nat.reduceMul, Nat.reduceLeDiff, if_false, List.take_of_length_le,
    List.drop_of_length_le]
  generalize hK0 : sendWireLabels.k0_point lib (⟨dG, grp⟩ : ECCHelper Pt) _ = K0 at hk ⊢
  generalize hK1 : sendWireLabels.k1_point lib (⟨dG, grp⟩ : ECCHelper Pt) _ = K1 at hk ⊢
  generalize receiveWireLabel.k_point lib (⟨dE, grp⟩ : ECCHelper Pt) _ = K at hk ⊢
  obtain ⟨t0, t1⟩ := take_drop_pair
    (xorMask label0.toBytes (lib.sha256 (lib.ecp_point_write_binary K0)))
    (xorMask label1.toBytes (lib.sha256 (lib.ecp_point_write_binary K1)))
    (xorMask_length _ _) (xorMask_length _ _)
  rw [t0, t1]
  cases choice
  · simp only [Bool.false_eq_true, if_false] at hk ⊢
    rw [hk, xorMask_xorMask _ _ (toBytes_length _ h0), ofBytes_toBytes _ h0]
  · simp only [if_true] at hk ⊢
    rw [hk, xorMask_xorMask _ _ (toBytes_length _ h1), ofBytes_toBytes _ h1]

/-- C1 at a concrete input: the seven-element group, scalars 3 and 5, choice 1. -/
theorem runOT_delivers_chosen_label_witness :
    toyLib.CodecOK ∧ toyGroup.OrderOK ∧ demoA0.WF ∧ demoA1.WF ∧ 8 ≤ 8
      ∧ runOT toyLib 8 (toyHelper 3) (toyHelper 5) demoA0 demoA1 true = some ((), demoA1) :=
  ⟨toyLib_codec, toyGroup_order, by decide, by decide, by decide,
    runOT_delivers_chosen_label toyLib toyLib_codec toyGroup toyGroup_order
      (drbgOf (mpi_write_binary 3 32)) (drbgOf (mpi_write_binary 5 32)) demoA0 demoA1
      (by decide) (by decide) true 8 (by decide)⟩

/-- C7, counterexample: 65 zero bytes are rejected by the point codec (non-zero return code), yet
the Garbler that receives them as `B` still sends the 34 bytes `E0 ‖ E1`, and the Evaluator that
receives them as `A` still sends a point `B` and returns a wire label. -/
theorem ot_continues_after_invalid_point :
    (toyLib.ecp_point_read_binary (List.replicate 65 0)).1 ≠ 0
      ∧ ((sendWireLabels toyLib (toyHelper 3) demoA0 demoA1).run (List.replicate 65 0)).1.drop 65
          = [14, 53, 88, 127, 162, 201, 236, 19, 54, 93, 128, 167, 202, 241, 20, 59, 95,
             17, 60, 91, 134, 173, 200, 247, 18, 57, 100, 131, 174, 213, 240, 31, 58, 101]
      ∧ ((receiveWireLabel toyLib (toyHelper 3) true).run
            (List.replicate 65 0 ++ List.replicate 34 0)).1
          = 4 :: 3 :: List.replicate 63 0
      ∧ ((receiveWireLabel toyLib (toyHelper 3) true).run
            (List.replicate 65 0 ++ List.replicate 34 0)).2
          = some ⟨[15, 52, 89, 126, 163, 200, 237, 18, 55, 92, 129, 166, 203, 240, 21, 58],
              true⟩ := by
  refine ⟨by decide, ?_, ?_, ?_⟩
  · rw [sendWireLabels_run _ _ _ _ _ (by decide),
      show 65 = (sendWireLabels.A_buf toyLib (toyHelper 3)).length from (buffer_length _ _).symm,
      List.drop_left]
    decide
  · rw [receiveWireLabel_run_all _ _ _ _ _ (by decide) (by decide)]
    decide
  · rw [receiveWireLabel_run_all _ _ _ _ _ (by decide) (by decide)]
    decide

/-- C7, amended: neither party looks at the result of `mbedtls_ecp_point_read_binary`. Whatever
65 bytes the Garbler receives as `B`, it still sends 34 bytes `E0 ‖ E1` after `A` and finishes;
whatever 65 bytes the Evaluator receives as `A`, it still sends 65 bytes for `B` and, once 34
more bytes arrive, returns a wire label. -/
theorem ot_parties_ignore_read_result (lib : Mbedtls Pt) (ecc : ECCHelper Pt)
    (label0 label1 : WireLabel) (choice : Bool) (buf e : List Nat) (hb : buf.length = 65)
    (he : e.length = 34) :
    (∃ E, E.length = 34
        ∧ (sendWireLabels lib ecc label0 label1).run buf
            = (sendWireLabels.A_buf lib ecc ++ E, some ()))
      ∧ (∃ B_buf w, B_buf.length = 65
        ∧ (receiveWireLabel lib ecc choice).run (buf ++ e) = (B_buf, some w)) := by
  constructor
  · exact ⟨_, by simp [xorMask_length], sendWireLabels_run lib ecc label0 label1 buf hb⟩
  · exact ⟨_, _, buffer_length _ _, receiveWireLabel_run_all lib ecc choice buf e hb he⟩

/-- C7 (amended) at a concrete input: 65 zero bytes as the received point. -/
theorem ot_parties_ignore_read_result_witness :
    (List.replicate 65 0).length = 65 ∧ (List.replicate 34 0).length = 34
      ∧ (∃ E, E.length = 34
          ∧ (sendWireLabels toyLib (toyHelper 3) demoA0 demoA1).run (List.replicate 65 0)
              = (sendWireLabels.A_buf toyLib (toyHelper 3) ++ E, some ()))
      ∧ (∃ B_buf w, B_buf.length = 65
          ∧ (receiveWireLabel toyLib (toyHelper 3) true).run
              (List.replicate 65 0 ++ List.replicate 34 0) = (B_buf, some w)) :=
  ⟨by decide, by decide,
    ot_parties_ignore_read_result toyLib (toyHelper 3) demoA0 demoA1 true (List.replicate 65 0)
      (List.replicate 34 0) (by decide) (by decide)⟩

/-- C10, counterexample: when the Garbler draws the scalar `a = 0` (choice 0, `b = 5`), both of
its key points `K0` and `K1` equal the Evaluator's key point `K`, so `K1 ≠ K` fails. -/
theorem key_points_coincide_for_zero_scalar :
    sendWireLabels.a (toyHelper 0) = 0
      ∧ sendWireLabels.k0_point toyLib (toyHelper 0)
          (receiveWireLabel.B_buf toyLib (toyHelper 5) false
            (sendWireLabels.A_buf toyLib (toyHelper 0)))
        = receiveWireLabel.k_point toyLib (toyHelper 5) (sendWireLabels.A_buf toyLib (toyHelper 0))
      ∧ sendWireLabels.k1_point toyLib (toyHelper 0)
          (receiveWireLabel.B_buf toyLib (toyHelper 5) false
            (sendWireLabels.A_buf toyLib (toyHelper 0)))
        = receiveWireLabel.k_point toyLib (toyHelper 5)
            (sendWireLabels.A_buf toyLib (toyHelper 0)) := by
  decide

/-- C10, amended: with `G` of prime order `N`, the Garbler's key point for the Evaluator's choice
always equals the Evaluator's key point (`K_c = K`), and the other one equals it exactly when the
Garbler's scalar `a` is 0. So for `a` in `[1, N)` exactly one of `K0`, `K1` equals `K`. -/
theorem key_points_agree_iff (lib : Mbedtls Pt) (hc : lib.CodecOK) (grp : EcpGroup Pt)
    (hgen : grp.GeneratorOK) (hp : grp.N.Prime) (dG dE : CtrDrbg) (choice : Bool) :
    (if choice then
        sendWireLabels.k1_point lib ⟨dG, grp⟩
          (receiveWireLabel.B_buf lib ⟨dE, grp⟩ choice (sendWireLabels.A_buf lib ⟨dG, grp⟩))
      else
        sendWireLabels.k0_point lib ⟨dG, grp⟩
          (receiveWireLabel.B_buf lib ⟨dE, grp⟩ choice (sendWireLabels.A_buf lib ⟨dG, grp⟩)))
        = receiveWireLabel.k_point lib ⟨dE, grp⟩ (sendWireLabels.A_buf lib ⟨dG, grp⟩)
      ∧ ((if choice then
            sendWireLabels.k0_point lib ⟨dG, grp⟩
              (receiveWireLabel.B_buf lib ⟨dE, grp⟩ choice (sendWireLabels.A_buf lib ⟨dG, grp⟩))
          else
            sendWireLabels.k1_point lib ⟨dG, grp⟩
              (receiveWireLabel.B_buf lib ⟨dE, grp⟩ choice (sendWireLabels.A_buf lib ⟨dG, grp⟩)))
            = receiveWireLabel.k_point lib ⟨dE, grp⟩ (sendWireLabels.A_buf lib ⟨dG, grp⟩)
          ↔ sendWireLabels.a (⟨dG, grp⟩ : ECCHelper Pt) = 0) := by
  have hN : 0 < grp.N := hp.pos
  have hG : grp.N • grp.G = 0 := (hgen grp.N).2 (dvd_refl _)
  refine ⟨chosen_key_point lib hc grp hN hG dG dE choice, ?_⟩
  obtain ⟨h, h0, h1⟩ := key_points lib hc grp hN hG dG dE choice
  have ha : sendWireLabels.a (⟨dG, grp⟩ : ECCHelper Pt) < grp.N := scalar_lt _ hN
  have hsq : (sendWireLabels.a (⟨dG, grp⟩ : ECCHelper Pt)
      * sendWireLabels.a (⟨dG, grp⟩ : ECCHelper Pt)) • grp.G = 0
      ↔ sendWireLabels.a (⟨dG, grp⟩ : ECCHelper Pt) = 0 := by
    rw [hgen, hp.dvd_mul, or_self]
    constructor
    · intro hd
      exact Nat.eq_zero_of_dvd_of_lt hd ha
    · intro h0; rw [h0]; exact dvd_zero _
  cases choice
  · simp only [Bool.false_eq_true, if_false] at h1 ⊢
    rw [h1, h, sub_eq_self, hsq]
  · simp only [if_true] at h0 ⊢
    rw [h0, h, add_right_eq_self, hsq]

/-- C9: for every point `A` sent by the Garbler and every point `B` in the group generated by
`G`, exactly one scalar `b` in `[0, N)` makes `receiveWireLabel` send `B` when the choice is 0
(`B = bG`), and exactly one when the choice is 1 (`B = A + bG`). The Evaluator draws `b` as the
32-byte big-endian encoding handed out by its DRBG; `G` has order `N`, `0 < N <= 2^256`, and the
point codec round-trips. -/
theorem evaluator_message_count (lib : Mbedtls Pt) (hc : lib.CodecOK) (grp : EcpGroup Pt)
    (hgen : grp.GeneratorOK) (hN : 0 < grp.N) (hN256 : grp.N ≤ 2 ^ 256) (dG : CtrDrbg)
    (B : Pt) (hB : ∃ k : Nat, B = k • grp.G) :
    ((Finset.range grp.N).filter (fun b =>
        ((receiveWireLabel lib ⟨drbgOf (mpi_write_binary b 32), grp⟩ false).run
          (sendWireLabels.A_buf lib ⟨dG, grp⟩)).1 = lib.ecp_point_write_binary B)).card = 1
      ∧ ((Finset.range grp.N).filter (fun b =>
        ((receiveWireLabel lib ⟨drbgOf (mpi_write_binary b 32), grp⟩ true).run
          (sendWireLabels.A_buf lib ⟨dG, grp⟩)).1 = lib.ecp_point_write_binary B)).card = 1 := by
  obtain ⟨k, rfl⟩ := hB
  have hG : grp.N • grp.G = 0 := (hgen grp.N).2 (dvd_refl _)
  have lA : (sendWireLabels.A_buf lib (⟨dG, grp⟩ : ECCHelper Pt)).length = 65 := buffer_length _ _
  generalize ha : sendWireLabels.a (⟨dG, grp⟩ : ECCHelper Pt) = a
  have hA : sendWireLabels.A (⟨dG, grp⟩ : ECCHelper Pt) = a • grp.G := by
    simp [sendWireLabels.A, ecp_mul, ha]
  -- what the Evaluator writes when its scalar is `b`
  have key : ∀ (choice : Bool) (b : Nat), b < grp.N →
      (((receiveWireLabel lib ⟨drbgOf (mpi_write_binary b 32), grp⟩ choice).run
          (sendWireLabels.A_buf lib ⟨dG, grp⟩)).1 = lib.ecp_point_write_binary (k • grp.G)
        ↔ b % grp.N = (k + (if choice then (grp.N - 1) * a else 0)) % grp.N) := by
    intro choice b hb
    have hsc : receiveWireLabel.b (⟨drbgOf (mpi_write_binary b 32), grp⟩ : ECCHelper Pt) = b :=
      scalar_of_encoding grp b hb hN256
    rw [receiveWireLabel_run_first lib _ choice _ lA, receiveWireLabel.B_buf,
      buffer_of_length ECC_POINT_SIZE _ (hc.write_length _), write_binary_injective lib hc,
      ← nsmul_eq_iff_modEq grp hgen]
    simp only [receiveWireLabel.B, read_A_buf lib hc, hA, hsc, ecp_mul, ecp_muladd, one_smul]
    cases choice
    · simp
    · simp only [if_true, add_smul, mul_smul]
      have hneg : (grp.N - 1) • a • grp.G + a • grp.G = 0 := by
        rw [← succ_nsmul, Nat.sub_add_cancel hN, smul_comm, hG, smul_zero]
      rw [eq_neg_of_add_eq_zero_left hneg]
      constructor
      · intro h
        rw [← h]; abel
      · intro h
        rw [h]; abel
  have count : ∀ choice : Bool,
      ((Finset.range grp.N).filter (fun b =>
        ((receiveWireLabel lib ⟨drbgOf (mpi_write_binary b 32), grp⟩ choice).run
          (sendWireLabels.A_buf lib ⟨dG, grp⟩)).1 = lib.ecp_point_write_binary (k • grp.G))).card
        = 1 := by
    intro choice
    rw [Finset.card_eq_one]
    refine ⟨(k + (if choice then (grp.N - 1) * a else 0)) % grp.N, ?_⟩
    ext b
    simp only [Finset.mem_filter, Finset.mem_range, Finset.mem_singleton]
    constructor
    · rintro ⟨hb, h⟩
      rw [← (key choice b hb).1 h, Nat.mod_eq_of_lt hb]
    · intro h
      have hb : b < grp.N := by rw [h]; exact Nat.mod_lt _ hN
      refine ⟨hb, (key choice b hb).2 ?_⟩
      rw [h, Nat.mod_mod]
  exact ⟨count false, count true⟩

/-- C10 (amended) at a concrete input: the seven-element group, scalars 3 and 5, choice 1. -/
theorem key_points_agree_iff_witness :
    toyLib.CodecOK ∧ toyGroup.GeneratorOK ∧ toyGroup.N.Prime
      ∧ sendWireLabels.k1_point toyLib (toyHelper 3)
          (receiveWireLabel.B_buf toyLib (toyHelper 5) true
            (sendWireLabels.A_buf toyLib (toyHelper 3)))
        = receiveWireLabel.k_point toyLib (toyHelper 5)
            (sendWireLabels.A_buf toyLib (toyHelper 3)) :=
  ⟨toyLib_codec, toyGroup_generator, by norm_num [toyGroup],
    (key_points_agree_iff toyLib toyLib_codec toyGroup toyGroup_generator
      (by norm_num [toyGroup]) (drbgOf (mpi_write_binary 3 32)) (drbgOf (mpi_write_binary 5 32))
      true).1⟩

/-- C9 at a concrete input: the seven-element group, `A = 4G`, `B = 3G`. -/
theorem evaluator_message_count_witness :
    toyLib.CodecOK ∧ toyGroup.GeneratorOK ∧ 0 < toyGroup.N ∧ toyGroup.N ≤ 2 ^ 256
      ∧ (∃ k : Nat, (3 : ZMod 7) = k • toyGroup.G)
      ∧ ((Finset.range toyGroup.N).filter (fun b =>
          ((receiveWireLabel toyLib ⟨drbgOf (mpi_write_binary b 32), toyGroup⟩ true).run
            (sendWireLabels.A_buf toyLib (toyHelper 4))).1
              = toyLib.ecp_point_write_binary 3)).card = 1 :=
  ⟨toyLib_codec, toyGroup_generator, by decide, by norm_num [toyGroup], ⟨3, by decide⟩,
    (evaluator_message_count toyLib toyLib_codec toyGroup toyGroup_generator (by decide)
      (by norm_num [toyGroup]) (drbgOf (mpi_write_binary 4 32)) 3 ⟨3, by decide⟩).2⟩

end Curve

/-- C8: `generateRandomScalar` sets the scalar to the 32 bytes drawn from the DRBG, read as a
big-endian unsigned integer, modulo the group order `N`; with `0 < N` the scalar is below
`N`. -/
theorem generateRandomScalar_value {Pt : Type} (ecc : ECCHelper Pt) (hN : 0 < ecc.group.N) :
    ecc.generateRandomScalar.2
        = (∑ i in Finset.range 32, (ecc.ctr_drbg.out i % 256) * 256 ^ (31 - i)) % ecc.group.N
      ∧ ecc.generateRandomScalar.2 < ecc.group.N := by
  refine ⟨?_, scalar_lt ecc hN⟩
  simp only [ECCHelper.generateRandomScalar, CtrDrbg.random]
  rw [mpi_read_binary_map_range]

/-- C8 at a concrete input: the P-256 order and 32 bytes `ff`. -/
theorem generateRandomScalar_value_witness :
    0 < secp256r1_N
      ∧ (ECCHelper.generateRandomScalar
          (⟨drbgOf (List.replicate 32 255), ⟨(), secp256r1_N⟩⟩ : ECCHelper Unit)).2
        < secp256r1_N :=
  ⟨by decide,
    (generateRandomScalar_value
      (⟨drbgOf (List.replicate 32 255), ⟨(), secp256r1_N⟩⟩ : ECCHelper Unit) (by decide)).2⟩
